import Mathlib

/-!
Verification of the resource lifecycle / memory-budget manager of the
translate-offline-ai repository.

The embedding translates the TypeScript sources directly:
* `src/services/modelManager.ts` — the `ModelManager` class (model lifecycle,
  memory check, request queue, unload timer, background handling);
* `src/unnamed/part_002` — the `MemoryManager` class (priority cache with
  threshold-triggered cleanup);
* `src/services/optimizedTranslationService.ts` — the translation cache
  (`getFromCache` / `addToCache` / `evictOldestCacheEntry`).

Time is modelled as a natural number of milliseconds (`Date.now()` values are
passed in explicitly).  JavaScript `Map`s are modelled as insertion-ordered
association lists with the exact `get` / `set` / `delete` semantics.
-/

namespace TranslateOffline

/-! ## JavaScript `Map` semantics

An insertion-ordered association list.  `set` replaces an existing key in
place (keeping its position) and appends a fresh key at the end; `get`
returns the value stored for the key; `delete` removes the entry with the
key.  This is exactly the observable behaviour of a JS `Map` with string
keys. -/

namespace JsMap

variable {β : Type}

def get : List (String × β) → String → Option β
  | [], _ => none
  | p :: rest, k => if p.1 = k then some p.2 else get rest k

def set : List (String × β) → String → β → List (String × β)
  | [], k, v => [(k, v)]
  | p :: rest, k, v => if p.1 = k then (k, v) :: rest else p :: set rest k v

def delete (m : List (String × β)) (k : String) : List (String × β) :=
  m.eraseP (fun p => p.1 == k)

end JsMap

/-- Decidable equality for the result type of fallible operations. -/
instance : DecidableEq (Except String Unit)
  | Except.ok a, Except.ok b =>
      match decEq a b with
      | isTrue h => isTrue (congrArg Except.ok h)
      | isFalse h => isFalse (fun hc => h (Except.ok.inj hc))
  | Except.ok _, Except.error _ => isFalse (fun hc => Except.noConfusion hc)
  | Except.error _, Except.ok _ => isFalse (fun hc => Except.noConfusion hc)
  | Except.error a, Except.error b =>
      match decEq a b with
      | isTrue h => isTrue (congrArg Except.error h)
      | isFalse h => isFalse (fun hc => h (Except.error.inj hc))

/-! ## `ModelManager` (src/services/modelManager.ts) -/

namespace ModelManager

/-- Lines 5-14: static model configuration. -/
structure ModelConfig where
  modelName : String
  modelPath : String
  isQuantized : Bool
  quantizationType : String
  maxTokens : Nat
  memoryLimit : Nat
  loadTimeout : Nat
  unloadDelay : Nat
deriving Repr, DecidableEq

/-- Lines 16-22: per-model status record kept in the `modelStatus` map. -/
structure ModelStatus where
  isLoaded : Bool
  isLoading : Bool
  lastUsed : Nat
  memoryUsage : Nat
  error : Option String
deriving Repr, DecidableEq

/-- Lines 51-60. -/
def GEMMA_CONFIG : ModelConfig :=
  { modelName := "gemma-3n-2b-q4"
    modelPath := "./assets/models/gemma-3n-2b-q4"
    isQuantized := true
    quantizationType := "Q4"
    maxTokens := 256
    memoryLimit := 256
    loadTimeout := 30000
    unloadDelay := 300000 }

/-- Lines 64-73. -/
def TTS_CONFIG : ModelConfig :=
  { modelName := "indic-parler-tts-mini"
    modelPath := "./assets/models/indic-parler-tts-mini"
    isQuantized := true
    quantizationType := "Q8"
    maxTokens := 128
    memoryLimit := 150
    loadTimeout := 15000
    unloadDelay := 600000 }

/-- The mutable fields of the `ModelManager` singleton (lines 38-47).
`gemmaModel` / `ttsModel` are the `private gemmaModel: any = null` handles;
no statement in the class ever assigns them a non-null value, which the
embedding reflects by never producing `some`.  `armedTimers` holds every
`setTimeout` callback that has been armed and neither fired nor cancelled
(the runtime's live-timer set); `unloadTimer` is the id tracked by the
`unloadTimer` field; a timer entry is `(id, modelKey, delay)`. -/
structure MMState where
  gemmaModel : Option Unit
  ttsModel : Option Unit
  modelStatus : List (String × ModelStatus)
  armedTimers : List (Nat × String × Nat)
  unloadTimer : Option Nat
  nextTimerId : Nat
  isBackgrounded : Bool
deriving Repr, DecidableEq

def mmInit : MMState := ⟨none, none, [], [], none, 0, false⟩

/-- Lines 370-372. -/
def setModelStatus (st : MMState) (modelKey : String) (status : ModelStatus) : MMState :=
  { st with modelStatus := JsMap.set st.modelStatus modelKey status }

/-- Lines 349-355: sum of `memoryUsage` over every entry of the status map. -/
def getCurrentMemoryUsage (st : MMState) : Nat :=
  (st.modelStatus.map (fun p => p.2.memoryUsage)).sum

/-- Lines 340-347: `(availableMemory - currentUsage) >= requiredMB` with the
simulated `availableMemory = 512`; JS numbers are signed, hence `Int`. -/
def checkMemoryAvailability (st : MMState) (requiredMB : Nat) : Bool :=
  (512 : Int) - (getCurrentMemoryUsage st : Int) ≥ (requiredMB : Int)

/-- Lines 332-337: `clearTimeout` on the tracked handle removes that timer
from the live-timer set and nulls the field. -/
def cancelUnloadTimer (st : MMState) : MMState :=
  match st.unloadTimer with
  | some id =>
      { st with armedTimers := st.armedTimers.eraseP (fun t => t.1 == id)
                unloadTimer := none }
  | none => st

/-- Lines 319-330: cancel any tracked timer, then arm a fresh `setTimeout`
for `modelKey` and track its handle. -/
def scheduleModelUnload (modelKey : String) (delay : Nat) (st : MMState) : MMState :=
  let st1 := cancelUnloadTimer st
  { st1 with armedTimers := st1.armedTimers ++ [(st1.nextTimerId, modelKey, delay)]
             unloadTimer := some st1.nextTimerId
             nextTimerId := st1.nextTimerId + 1 }

/-- Lines 293-304: the unload is guarded by `if (this.gemmaModel)`; only when
the handle is non-null is the status reset. -/
def unloadGemmaModel (now : Nat) (st : MMState) : MMState :=
  if st.gemmaModel.isSome then
    setModelStatus { st with gemmaModel := none } "gemma" ⟨false, false, now, 0, none⟩
  else st

/-- Lines 306-317: same shape for the TTS model. -/
def unloadTTSModel (now : Nat) (st : MMState) : MMState :=
  if st.ttsModel.isSome then
    setModelStatus { st with ttsModel := none } "tts" ⟨false, false, now, 0, none⟩
  else st

/-- Lines 217-228: `loadQuantizedModel` awaits a fixed simulated delay of
2000 ms and then logs; it never reads `config.loadTimeout`, never aborts and
never fails.  Result: (elapsed milliseconds, outcome). -/
def loadQuantizedModel (_config : ModelConfig) : Nat × Except String Unit :=
  (2000, Except.ok ())

/-- Lines 374-386: `waitForModelLoad` polls the status map every 100 ms and
calls `resolve()` — carrying no value and no error — at the first observation
whose status exists and has `isLoading` false.  Modelled over the sequence of
observations the poll makes; `none` means the poll never resolved within the
observed sequence. -/
def waitForModelLoad : List (Option ModelStatus) → Option (Except String Unit)
  | [] => none
  | some s :: rest => if s.isLoading then waitForModelLoad rest else some (Except.ok ())
  | none :: rest => waitForModelLoad rest

/-- Lines 117-166 (and the identical 169-214 for TTS): the load entry point.
`now` is `Date.now()` at entry, `now2` is `Date.now()` when the final status
is written.  Returns the final state, the list of statuses written to the
map by this call (in write order), and the outcome delivered to the caller.
The already-loading branch awaits `waitForModelLoad`, whose resolution
carries no error, and then returns success. -/
def loadModel (config : ModelConfig) (modelKey errName : String)
    (st : MMState) (now now2 : Nat) :
    MMState × List ModelStatus × Except String Unit :=
  if ((JsMap.get st.modelStatus modelKey).map ModelStatus.isLoaded).getD false then
    (st, [], Except.ok ())
  else if ((JsMap.get st.modelStatus modelKey).map ModelStatus.isLoading).getD false then
    (st, [], Except.ok ())
  else
    let loadingStatus : ModelStatus := ⟨false, true, now, 0, none⟩
    let st1 := setModelStatus st modelKey loadingStatus
    if checkMemoryAvailability st1 config.memoryLimit then
      let loadedStatus : ModelStatus := ⟨true, false, now2, config.memoryLimit, none⟩
      let st2 := setModelStatus st1 modelKey loadedStatus
      (scheduleModelUnload modelKey config.unloadDelay st2,
       [loadingStatus, loadedStatus], Except.ok ())
    else
      let msg := "Insufficient memory for " ++ errName ++ " model"
      let failStatus : ModelStatus := ⟨false, false, now2, 0, some msg⟩
      (setModelStatus st1 modelKey failStatus, [loadingStatus, failStatus], Except.error msg)

def loadGemmaModel (st : MMState) (now now2 : Nat) :
    MMState × List ModelStatus × Except String Unit :=
  loadModel GEMMA_CONFIG "gemma" "Gemma" st now now2

def loadTTSModel (st : MMState) (now now2 : Nat) :
    MMState × List ModelStatus × Except String Unit :=
  loadModel TTS_CONFIG "tts" "TTS" st now now2

/-- Lines 323-329: the armed `setTimeout` fires — the timer leaves the live
set and the callback body runs `unloadGemmaModel` / `unloadTTSModel`
according to the captured `modelKey`. -/
def fireUnloadTimer (now : Nat) (st : MMState) : MMState :=
  match st.armedTimers with
  | [] => st
  | (_, modelKey, _) :: rest =>
      let st1 := { st with armedTimers := rest }
      if modelKey = "gemma" then unloadGemmaModel now st1
      else if modelKey = "tts" then unloadTTSModel now st1
      else st1

/-- Lines 285-290 (the `clearCache` call touches only AsyncStorage, outside
this state). -/
def unloadModelsOnBackground (now : Nat) (st : MMState) : MMState :=
  unloadTTSModel now (unloadGemmaModel now st)

inductive AppStateStatus where
  | active
  | background
  | inactive
deriving Repr, DecidableEq

/-- Lines 96-104. -/
def handleAppStateChange (next : AppStateStatus) (now : Nat) (st : MMState) : MMState :=
  match next with
  | .background => unloadModelsOnBackground now { st with isBackgrounded := true }
  | .inactive => unloadModelsOnBackground now { st with isBackgrounded := true }
  | .active => cancelUnloadTimer { st with isBackgrounded := false }

end ModelManager

/-! ## `MemoryManager` (src/unnamed/part_002) -/

namespace MemoryManager

/-- Lines 12-17: cache entry record; `priority` is `1 = high, 2 = medium,
3 = low`. -/
structure CacheItem where
  key : String
  size : Nat
  timestamp : Nat
  priority : Nat
deriving Repr, DecidableEq

/-- The `cacheItems` map (line 33) together with the platform the singleton
was created on (used by `getTotalMemory`). -/
structure MemState where
  cacheItems : List (String × CacheItem)
  platformIsIOS : Bool
deriving Repr, DecidableEq

def memInit : MemState := ⟨[], true⟩

/-- Line 41. -/
def CLEANUP_INTERVAL : Nat := 300000

/-- Line 44. -/
def CACHE_EXPIRY : Nat := 3600000

/-- Lines 266-269: simulated device memory, in MB. -/
def getTotalMemory (st : MemState) : Nat :=
  if st.platformIsIOS then 4096 else 8192

/-- Lines 281-287. -/
def getCacheSize (st : MemState) : Nat :=
  (st.cacheItems.map (fun p => p.2.size)).sum

/-- Lines 290-293. -/
def getModelMemory : Nat := 256

/-- Lines 272-278: `baseMemory (512) + cacheSize + modelMemory`. -/
def getUsedMemory (st : MemState) : Nat :=
  512 + getCacheSize st + getModelMemory

/-- Lines 135-137 and 150-152: `usedMemory / totalMemory > 0.8` computed in
JS doubles.  `totalMemory` is a power of two (4096 or 8192), so the quotient
is exact and the comparison agrees with the exact rational comparison
`5 * used > 4 * total` (the double closest to 0.8 lies strictly between
consecutive multiples of 1/4096). -/
def overThreshold (st : MemState) : Bool :=
  4 * getTotalMemory st < 5 * getUsedMemory st

/-- Lines 161-178: collect every key whose entry's age exceeds
`CACHE_EXPIRY`, then delete each collected key. -/
def removeExpiredCacheItems (now : Nat) (st : MemState) : MemState :=
  let expiredKeys :=
    (st.cacheItems.filter (fun p => now - p.2.timestamp > CACHE_EXPIRY)).map (fun p => p.1)
  { st with cacheItems := expiredKeys.foldl (fun m k => JsMap.delete m k) st.cacheItems }

/-- Stable ascending insertion by `timestamp`: equal timestamps keep their
original relative order, matching JS `Array.prototype.sort` (stable) with
comparator `a.timestamp - b.timestamp`. -/
def insertByTimestamp (x : CacheItem) : List CacheItem → List CacheItem
  | [] => [x]
  | y :: ys => if y.timestamp ≤ x.timestamp then y :: insertByTimestamp x ys else x :: y :: ys

def sortByTimestamp : List CacheItem → List CacheItem
  | [] => []
  | x :: xs => insertByTimestamp x (sortByTimestamp xs)

/-- Lines 181-193: take the priority-3 values, sort them oldest-first, and
delete the oldest `Math.ceil(length * 0.5)` of them by key. -/
def removeLowPriorityItems (st : MemState) : MemState :=
  let lowPriorityItems :=
    sortByTimestamp ((st.cacheItems.map (fun p => p.2)).filter (fun it => it.priority == 3))
  let itemsToRemove := (lowPriorityItems.length + 1) / 2
  let remaining :=
    (lowPriorityItems.take itemsToRemove).foldl (fun m it => JsMap.delete m it.key) st.cacheItems
  { st with cacheItems := remaining }

/-- Lines 144-158: remove expired items, then — if the ratio recomputed on
the shrunken cache is still over the threshold — remove low-priority items
(the listener notification has no effect on this state). -/
def performMemoryCleanup (now : Nat) (st : MemState) : MemState :=
  let st1 := removeExpiredCacheItems now st
  if overThreshold st1 then removeLowPriorityItems st1 else st1

/-- Lines 133-141. -/
def checkMemoryThreshold (now : Nat) (st : MemState) : MemState :=
  if overThreshold st then performMemoryCleanup now st else st

/-- Lines 99-110: store the item (the caller supplies the estimated `size`;
`estimateDataSize` measures the serialized payload, which the embedding
takes as an input), then run the threshold check. -/
def addCacheItem (key : String) (size : Nat) (priority : Nat) (now : Nat)
    (st : MemState) : MemState :=
  checkMemoryThreshold now
    { st with cacheItems := JsMap.set st.cacheItems key ⟨key, size, now, priority⟩ }

/-- Lines 118-120: plain map lookup — no expiry check, no removal, no use of
the current time. -/
def getCacheItem (st : MemState) (key : String) : Option CacheItem :=
  JsMap.get st.cacheItems key

/-- Lines 196-216: delete every key whose entry has `priority > 1`
(the AsyncStorage clearing touches no field of this state). -/
def performAggressiveCleanup (st : MemState) : MemState :=
  let keysToRemove := (st.cacheItems.filter (fun p => p.2.priority > 1)).map (fun p => p.1)
  { st with cacheItems := keysToRemove.foldl (fun m k => JsMap.delete m k) st.cacheItems }

/-- Lines 225-228. -/
def performPeriodicCleanup (now : Nat) (st : MemState) : MemState :=
  checkMemoryThreshold now (removeExpiredCacheItems now st)

/-- Lines 320-338: item count, total size, and the `{1,2,3}` priority
breakdown (states produced by this class only ever hold priorities 1-3). -/
structure CacheStats where
  totalItems : Nat
  totalSize : Nat
  highCount : Nat
  mediumCount : Nat
  lowCount : Nat
deriving Repr, DecidableEq

def getCacheStats (st : MemState) : CacheStats :=
  { totalItems := st.cacheItems.length
    totalSize := getCacheSize st
    highCount := ((st.cacheItems.map (fun p => p.2)).filter (fun it => it.priority == 1)).length
    mediumCount := ((st.cacheItems.map (fun p => p.2)).filter (fun it => it.priority == 2)).length
    lowCount := ((st.cacheItems.map (fun p => p.2)).filter (fun it => it.priority == 3)).length }

end MemoryManager

/-! ## Translation cache (src/services/optimizedTranslationService.ts) -/

namespace TranslationService

/-- Lines 31-36: a cached translation.  `confidence` is a unit-interval
float in the source; its value never influences control flow, and it is
carried as a rational. -/
structure CacheEntry where
  text : String
  timestamp : Nat
  confidence : ℚ
deriving Repr, DecidableEq

/-- Line 63. -/
def CACHE_EXPIRY_HOURS : Nat := 24

/-- Line 66. -/
def MAX_CACHE_SIZE : Nat := 500

structure TransState where
  translationCache : List (String × CacheEntry)
deriving Repr, DecidableEq

def transInit : TransState := ⟨[]⟩

/-- Lines 562-571: return the text while the entry's age is under the
expiry window; otherwise delete the stale entry and return nothing. -/
def getFromCache (st : TransState) (key : String) (now : Nat) :
    TransState × Option String :=
  match JsMap.get st.translationCache key with
  | some entry =>
      if now - entry.timestamp < CACHE_EXPIRY_HOURS * 3600000 then (st, some entry.text)
      else ({ st with translationCache := JsMap.delete st.translationCache key }, none)
  | none => (st, none)

/-- Lines 586-600: fold over the entries tracking `(oldestKey, oldestTime)`,
starting from the sentinel `('', Date.now())`; an entry is selected only
when its timestamp is strictly below the running minimum. -/
def oldStep (acc : String × Nat) (p : String × CacheEntry) : String × Nat :=
  if p.2.timestamp < acc.2 then (p.1, p.2.timestamp) else acc

def findOldest (cache : List (String × CacheEntry)) (now : Nat) : String × Nat :=
  cache.foldl oldStep ("", now)

/-- Lines 586-600: delete the selected key unless the sentinel `''` (falsy)
survived the scan. -/
def evictOldestCacheEntry (now : Nat) (st : TransState) : TransState :=
  let oldestKey := (findOldest st.translationCache now).1
  if oldestKey = "" then st
  else { st with translationCache := JsMap.delete st.translationCache oldestKey }

/-- Lines 573-584: evict once when the map already holds at least
`MAX_CACHE_SIZE` entries, then store the new entry. -/
def addToCache (key text : String) (confidence : ℚ) (now : Nat)
    (st : TransState) : TransState :=
  let st1 :=
    if st.translationCache.length ≥ MAX_CACHE_SIZE then evictOldestCacheEntry now st else st
  { st1 with translationCache := JsMap.set st1.translationCache key ⟨text, now, confidence⟩ }

/-- Lines 660-665: `{size, size * 100}`. -/
def getTransCacheStats (st : TransState) : Nat × Nat :=
  (st.translationCache.length, st.translationCache.length * 100)

/-- Lines 602-611: drop every entry whose age strictly exceeds the expiry
window (the hourly sweep). -/
def cleanupExpiredCache (now : Nat) (st : TransState) : TransState :=
  let kept :=
    st.translationCache.filter (fun p => ¬ now - p.2.timestamp > CACHE_EXPIRY_HOURS * 3600000)
  { st with translationCache := kept }

end TranslationService

/-! ## The request queue (src/services/modelManager.ts, lines 46-47 and 230-282)

`executeWithGemma` / `executeWithTTS` push a closure onto the shared
`requestQueue` and call `processQueue()`.  `processQueue` returns at once if
a drain is already running (`isProcessingQueue`) or the queue is empty;
otherwise it sets the flag and repeatedly shifts one task and awaits it.

The embedding is a small-step system over the JS event loop: tasks are
numbered in submission order (`nextId`); a `submit` action runs the
synchronous part of `executeWith…` (push + `processQueue` up to its first
suspension), and a `finish` action is the event-loop turn in which the
currently awaited operation resolves and the drain loop proceeds.  `active`
is the set of tasks that have been shifted off the queue but whose promise
has not yet resolved; `trace` records, in order, when each operation body
begins (`start`) and when it resolves (`done`). -/

namespace Queue

inductive QEvent where
  | start (id : Nat)
  | done (id : Nat)
deriving Repr, DecidableEq

/-- A queued closure: its submission index and which entry point created it
(`executeWithTTS` or `executeWithGemma` — both push onto the same queue). -/
structure QTask where
  id : Nat
  usesTTS : Bool
deriving Repr, DecidableEq

structure QState where
  requestQueue : List QTask
  isProcessingQueue : Bool
  active : List QTask
  trace : List QEvent
  nextId : Nat
deriving Repr, DecidableEq

def qInit : QState := ⟨[], false, [], [], 0⟩

inductive QAction where
  | submit (usesTTS : Bool)
  | finish
deriving Repr, DecidableEq

/-- Lines 263-282 up to the first suspension: return if already draining or
empty; otherwise set the flag, shift the first task and begin awaiting it. -/
def processQueue (st : QState) : QState :=
  if st.isProcessingQueue then st
  else
    match st.requestQueue with
    | [] => st
    | t :: rest =>
        { st with isProcessingQueue := true
                  requestQueue := rest
                  active := [t]
                  trace := st.trace ++ [QEvent.start t.id] }

/-- One event-loop turn. -/
def step (st : QState) : QAction → QState
  | .submit b =>
      processQueue
        { st with requestQueue := st.requestQueue ++ [⟨st.nextId, b⟩]
                  nextId := st.nextId + 1 }
  | .finish =>
      match st.active with
      | [] => st
      | t :: _ =>
          let st1 := { st with active := ([] : List QTask)
                               trace := st.trace ++ [QEvent.done t.id] }
          match st1.requestQueue with
          | [] => { st1 with isProcessingQueue := false }
          | u :: rest =>
              { st1 with requestQueue := rest
                         active := [u]
                         trace := st1.trace ++ [QEvent.start u.id] }

def runQueue (st : QState) (acts : List QAction) : QState :=
  acts.foldl step st

/-- The fully serialized trace of the first `k` tasks:
`start 0, done 0, start 1, done 1, …`. -/
def canonTrace (k : Nat) : List QEvent :=
  (List.range k).flatMap (fun i => [QEvent.start i, QEvent.done i])

/-- Reachable-state invariant: either the drain loop is idle — every
submitted task has fully resolved and the trace is the canonical serialized
one — or exactly one task `t` is between popped and resolved, every earlier
task has resolved before `start t.id`, and the queue holds exactly the
later tasks in submission order. -/
def QInv (st : QState) : Prop :=
  (st.active = [] ∧ st.isProcessingQueue = false ∧ st.requestQueue = [] ∧
     st.trace = canonTrace st.nextId) ∨
  (∃ t m, st.active = [t] ∧ st.isProcessingQueue = true ∧
     st.trace = canonTrace t.id ++ [QEvent.start t.id] ∧
     st.requestQueue.map QTask.id = List.range' (t.id + 1) m ∧
     st.nextId = t.id + 1 + m)

end Queue

/-! ## Invariants and concrete states used by the claims -/

namespace ModelManager

/-- At most one armed idle-unload timer exists process-wide, and any armed
timer is the one tracked by the `unloadTimer` field. -/
def TimerInv (st : MMState) : Prop :=
  st.armedTimers.length ≤ 1 ∧ ∀ tr ∈ st.armedTimers, st.unloadTimer = some tr.1

/-- A state whose status map records 300 MB of usage for the TTS model,
exercising the memory-rejection path of `loadGemmaModel` (the claim
quantifies over arbitrary recorded usage `U`). -/
def stHighUsage : MMState :=
  ⟨none, none, [("tts", ⟨true, false, 0, 300, none⟩)], [], none, 0, false⟩

/-- The manager after `loadGemmaModel` completes on a fresh manager. -/
def stGemmaLoaded : MMState := (loadGemmaModel mmInit 1000 1001).1

/-- The manager after both models have been loaded. -/
def stBothLoaded : MMState := (loadTTSModel stGemmaLoaded 1002 1003).1

/-- A state whose gemma entry is `Loading` (an in-flight load exists). -/
def stGemmaLoading : MMState :=
  ⟨none, none, [("gemma", ⟨false, true, 4000, 0, none⟩)], [], none, 0, false⟩

/-- The status left behind by a load that failed: not loaded, not loading,
with the error recorded — what the polling waiter observes after a failed
in-flight load. -/
def failedFinalStatus : ModelStatus :=
  ⟨false, false, 5000, 0, some "Insufficient memory for Gemma model"⟩

end ModelManager

namespace MemoryManager

/-- Three cache entries: one High and two Medium (the backgrounding
scenario). -/
def memHighMedMed : MemState :=
  ⟨[("h", ⟨"h", 100, 1000, 1⟩), ("m1", ⟨"m1", 100, 1000, 2⟩),
    ("m2", ⟨"m2", 100, 1000, 2⟩)], true⟩

/-- The spec's eviction scenario: Low, Low, Medium, High entries of size
150 each, inserted in that order at t = 1000. -/
def memAfterFour : MemState :=
  addCacheItem "high" 150 1 1000 (addCacheItem "med" 150 2 1000
    (addCacheItem "low2" 150 3 1000 (addCacheItem "low1" 150 3 1000 memInit)))

/-- An over-threshold iOS state (used 512+2600+256 = 3368 of 4096, ratio
above 0.8): two Low entries of different ages, one Medium, one High. -/
def memOverThreshold : MemState :=
  ⟨[("lowOld", ⟨"lowOld", 1000, 0, 3⟩), ("lowNew", ⟨"lowNew", 600, 500, 3⟩),
    ("med", ⟨"med", 500, 200, 2⟩), ("high", ⟨"high", 500, 100, 1⟩)], true⟩

/-- A single entry inserted at t = 0, far older than `CACHE_EXPIRY` by
t = 4000000. -/
def memStale : MemState := ⟨[("k", ⟨"k", 100, 0, 1⟩)], true⟩

end MemoryManager

namespace TranslationService

/-- A translation cache holding 500 distinct non-empty keys (the key for
index `i` is the string of `i + 1` copies of `x`), all inserted during the
same millisecond 1000 — reachable by 500 `addToCache` calls within one
tick. -/
def fullSameTickCache : List (String × CacheEntry) :=
  (List.range 500).map (fun i => (String.mk (List.replicate (i + 1) 'x'), ⟨"t", 1000, 1⟩))

def stFullSameTick : TransState := ⟨fullSameTickCache⟩

/-- A one-entry translation cache inserted at t = 0. -/
def stOneEntry : TransState := ⟨[("k", ⟨"hello", 0, 1⟩)]⟩

end TranslationService

/-! ## Library lemmas for the map and queue models -/

namespace JsMap

variable {β : Type}

theorem get_set_self (m : List (String × β)) (k : String) (v : β) :
    get (set m k v) k = some v := by
  induction m with
  | nil => simp [get, set]
  | cons p rest ih =>
    by_cases h : p.1 = k
    · simp [get, set, h]
    · simp [get, set, h, ih]

theorem length_set_of_get_none (m : List (String × β)) (k : String) (v : β)
    (h : get m k = none) : (set m k v).length = m.length + 1 := by
  induction m with
  | nil => simp [set]
  | cons p rest ih =>
    by_cases hp : p.1 = k
    · simp [get, hp] at h
    · simp [get, hp] at h
      simp [set, hp, ih h]

theorem length_set_of_get_some (m : List (String × β)) (k : String) (v w : β)
    (h : get m k = some w) : (set m k v).length = m.length := by
  induction m with
  | nil => simp [get] at h
  | cons p rest ih =>
    by_cases hp : p.1 = k
    · simp [set, hp]
    · simp [get, hp] at h
      simp [set, hp, ih h]

theorem get_eq_none_of_not_memKey (m : List (String × β)) (k : String)
    (h : k ∉ m.map Prod.fst) : get m k = none := by
  induction m with
  | nil => simp [get]
  | cons p rest ih =>
    simp only [List.map_cons, List.mem_cons] at h
    push_neg at h
    have hp : ¬ p.1 = k := fun hk => h.1 hk.symm
    simp [get, hp, ih h.2]

theorem memKey_of_get_some (m : List (String × β)) (k : String) (v : β)
    (h : get m k = some v) : k ∈ m.map Prod.fst := by
  induction m with
  | nil => simp [get] at h
  | cons p rest ih =>
    by_cases hp : p.1 = k
    · simp [hp]
    · simp [get, hp] at h
      simp [ih h]

theorem mem_of_get_some (m : List (String × β)) (k : String) (v : β)
    (h : get m k = some v) : (k, v) ∈ m := by
  induction m with
  | nil => simp [get] at h
  | cons p rest ih =>
    by_cases hp : p.1 = k
    · simp [get, hp] at h
      rcases p with ⟨a, b⟩
      simp only at hp h
      rw [hp, h]
      exact List.mem_cons_self _ _
    · simp [get, hp] at h
      exact List.mem_cons_of_mem p (ih h)

theorem length_delete_of_memKey (m : List (String × β)) (k : String)
    (h : k ∈ m.map Prod.fst) : (delete m k).length + 1 = m.length := by
  induction m with
  | nil => simp at h
  | cons p rest ih =>
    by_cases hp : p.1 = k
    · simp [delete, List.eraseP_cons, hp]
    · simp only [List.map_cons, List.mem_cons] at h
      rcases h with h | h
      · exact absurd h.symm hp
      · simpa [delete, List.eraseP_cons, hp] using ih h

theorem get_delete_self (m : List (String × β)) (k : String)
    (hnd : (m.map Prod.fst).Nodup) : get (delete m k) k = none := by
  induction m with
  | nil => simp [delete, get]
  | cons p rest ih =>
    simp only [List.map_cons, List.nodup_cons] at hnd
    by_cases hp : p.1 = k
    · simp only [delete, List.eraseP_cons, hp]
      simp only [beq_self_eq_true, cond_true]
      apply get_eq_none_of_not_memKey
      rw [hp] at hnd
      exact hnd.1
    · simp only [delete, List.eraseP_cons]
      have : (p.1 == k) = false := by simp [hp]
      simp only [this, cond_false]
      simpa [get, hp] using ih hnd.2

theorem mem_delete_of_ne (m : List (String × β)) (k : String) (p : String × β)
    (hp : p ∈ m) (hne : p.1 ≠ k) : p ∈ delete m k := by
  induction m with
  | nil => simp at hp
  | cons q rest ih =>
    rcases List.mem_cons.mp hp with h | h
    · subst h
      have : (p.1 == k) = false := by simp [hne]
      simp only [delete, List.eraseP_cons, this, cond_false]
      exact List.mem_cons_self p _
    · by_cases hq : q.1 = k
      · simp only [delete, List.eraseP_cons, hq]
        simp only [beq_self_eq_true, cond_true]
        exact h
      · have : (q.1 == k) = false := by simp [hq]
        simp only [delete, List.eraseP_cons, this, cond_false]
        exact List.mem_cons_of_mem q (ih h)

theorem delete_of_not_memKey (m : List (String × β)) (k : String)
    (h : k ∉ m.map Prod.fst) : delete m k = m := by
  induction m with
  | nil => rfl
  | cons p rest ih =>
    simp only [List.map_cons, List.mem_cons] at h
    push_neg at h
    have hp : ¬ p.1 = k := fun hk => h.1 hk.symm
    have hb : (p.1 == k) = false := by simp [hp]
    have ih2 : delete rest k = rest := ih h.2
    simp only [delete, List.eraseP_cons, hb, cond_false] at ih2 ⊢
    rw [ih2]

end JsMap

namespace Queue

theorem canonTrace_succ (k : Nat) :
    canonTrace (k + 1) = canonTrace k ++ [QEvent.start k, QEvent.done k] := by
  simp [canonTrace, List.range_succ]

theorem qInv_init : QInv qInit := by
  left
  simp [qInit, canonTrace]

theorem qInv_step (st : QState) (a : QAction) (h : QInv st) : QInv (step st a) := by
  rcases h with ⟨ha, hp, hq, ht⟩ | ⟨t, m, ha, hp, ht, hq, hn⟩
  · cases a with
    | submit b =>
        right
        refine ⟨⟨st.nextId, b⟩, 0, ?_, ?_, ?_, ?_, ?_⟩ <;>
          simp [step, processQueue, hq, hp, ht, ha]
    | finish =>
        left
        simp [step, ha, hp, hq, ht]
  · cases a with
    | submit b =>
        right
        refine ⟨t, m + 1, ?_, ?_, ?_, ?_, ?_⟩
        · simp [step, processQueue, hp, ha]
        · simp [step, processQueue, hp]
        · simp [step, processQueue, hp, ht]
        · simp only [step, processQueue, hp, if_true, List.map_append, hq, hn]
          simp only [List.map_cons, List.map_nil]
          have hcat := @List.range'_concat 1 (t.id + 1) m
          simpa using hcat.symm
        · simp only [step, processQueue, hp]
          simp [hn]
          omega
    | finish =>
        rcases hqe : st.requestQueue with _ | ⟨u, rest⟩
        · left
          have hm : m = 0 := by
            rw [hqe] at hq
            have := congrArg List.length hq
            simp at this
            omega
          refine ⟨?_, ?_, ?_, ?_⟩ <;>
            simp [step, ha, hqe, ht, hn, hm, canonTrace_succ]
        · right
          have hmap := hq
          rw [hqe] at hmap
          rcases hm : m with _ | m'
          · rw [hm] at hmap
            simp at hmap
          · rw [hm, List.range'_succ] at hmap
            simp only [List.map_cons] at hmap
            rw [List.cons.injEq] at hmap
            have huid : u.id = t.id + 1 := hmap.1
            have hrest : rest.map QTask.id = List.range' (t.id + 1 + 1) m' := hmap.2
            refine ⟨u, m', ?_, ?_, ?_, ?_, ?_⟩
            · simp [step, ha, hqe]
            · simp [step, ha, hqe, hp]
            · simp only [step, ha, hqe]
              simp [ht, huid, canonTrace_succ]
            · simp only [step, ha, hqe]
              simpa [huid] using hrest
            · simp only [step, ha, hqe]
              omega

theorem qInv_run (acts : List QAction) (st : QState) (h : QInv st) :
    QInv (runQueue st acts) := by
  induction acts generalizing st with
  | nil => simpa [runQueue] using h
  | cons a rest ih =>
      have hr : runQueue st (a :: rest) = runQueue (step st a) rest := rfl
      rw [hr]
      exact ih (step st a) (qInv_step st a h)

end Queue



/-! ## Claims -/

open ModelManager MemoryManager TranslationService Queue

/-- Replacing (or adding) a zero-usage status for a key whose current
recorded usage is zero (or absent) leaves the total recorded usage
unchanged. -/
theorem sumUsage_set (m : List (String × ModelManager.ModelStatus)) (k : String)
    (s : ModelManager.ModelStatus) (hs : s.memoryUsage = 0)
    (hidle : JsMap.get m k = none ∨
      ∃ old, JsMap.get m k = some old ∧ old.memoryUsage = 0) :
    ((JsMap.set m k s).map (fun p => p.2.memoryUsage)).sum =
      (m.map (fun p => p.2.memoryUsage)).sum := by
  induction m with
  | nil => simp [JsMap.set, hs]
  | cons p rest ih =>
    by_cases hp : p.1 = k
    · rcases hidle with h | ⟨old, hold, hz⟩
      · simp [JsMap.get, hp] at h
      · simp only [JsMap.get, hp, if_true, Option.some.injEq] at hold
        have hz2 : p.2.memoryUsage = 0 := by rw [hold]; exact hz
        simp [JsMap.set, hp, hs, hz2]
    · have hidle2 : JsMap.get rest k = none ∨
          ∃ old, JsMap.get rest k = some old ∧ old.memoryUsage = 0 := by
        rcases hidle with h | ⟨old, hold, hz⟩
        · simp [JsMap.get, hp] at h
          exact Or.inl h
        · simp [JsMap.get, hp] at hold
          exact Or.inr ⟨old, hold, hz⟩
      simp [JsMap.set, hp, ih hidle2]

/-- Claim C1 (counterexample): with 300 MB of recorded usage, loading the
256 MB gemma model is rejected with the insufficient-memory error — but the
first status the call writes for `gemma`, before the memory check runs, has
`isLoading := true`, so the resource does enter `Loading` before the
rejection. -/
theorem gemma_load_enters_loading_before_rejection :
    (loadGemmaModel stHighUsage 1000 1001).2.2 =
      Except.error "Insufficient memory for Gemma model" ∧
    (loadGemmaModel stHighUsage 1000 1001).2.1 =
      [⟨false, true, 1000, 0, none⟩,
       ⟨false, false, 1001, 0, some "Insufficient memory for Gemma model"⟩] ∧
    ((loadGemmaModel stHighUsage 1000 1001).2.1.head?.map
      ModelManager.ModelStatus.isLoading) = some true := by
  decide

/-- Claim C1 (amended): from any state whose gemma entry is idle (absent, or
neither loaded nor loading, with zero recorded usage), `loadGemmaModel`
succeeds iff `U + 256 ≤ 512` where `U` is the recorded usage; when
`U + 256 > 512` it fails with the insufficient-memory error, the recorded
usage is unchanged and the final status is not loading — but the call does
write a `Loading` status before the memory check (the spec's "without ever
entering Loading" does not hold). -/
theorem ensureLoaded_budget_gate (st : ModelManager.MMState) (now now2 : Nat)
    (hidle : JsMap.get st.modelStatus "gemma" = none ∨
      ∃ s, JsMap.get st.modelStatus "gemma" = some s ∧
        s.isLoaded = false ∧ s.isLoading = false ∧ s.memoryUsage = 0) :
    ((loadGemmaModel st now now2).2.2 = Except.ok () ↔
        getCurrentMemoryUsage st + 256 ≤ 512) ∧
    (512 < getCurrentMemoryUsage st + 256 →
      (loadGemmaModel st now now2).2.2 =
          Except.error "Insufficient memory for Gemma model" ∧
      getCurrentMemoryUsage (loadGemmaModel st now now2).1 =
          getCurrentMemoryUsage st ∧
      ((JsMap.get (loadGemmaModel st now now2).1.modelStatus "gemma").map
          ModelManager.ModelStatus.isLoading) = some false ∧
      (((loadGemmaModel st now now2).2.1.head?).map
          ModelManager.ModelStatus.isLoading) = some true) := by
  have hload : ((JsMap.get st.modelStatus "gemma").map
      ModelManager.ModelStatus.isLoaded).getD false = false := by
    rcases hidle with h | ⟨s, hget, h1, h2, h3⟩
    · simp [h]
    · simp [hget, h1]
  have hloading : ((JsMap.get st.modelStatus "gemma").map
      ModelManager.ModelStatus.isLoading).getD false = false := by
    rcases hidle with h | ⟨s, hget, h1, h2, h3⟩
    · simp [h]
    · simp [hget, h2]
  have husage1 : getCurrentMemoryUsage
      (setModelStatus st "gemma" ⟨false, true, now, 0, none⟩) =
      getCurrentMemoryUsage st := by
    apply sumUsage_set
    · rfl
    · rcases hidle with h | ⟨s, hget, h1, h2, h3⟩
      · exact Or.inl h
      · exact Or.inr ⟨s, hget, h3⟩
  by_cases hc : getCurrentMemoryUsage st + 256 ≤ 512
  · have hct : checkMemoryAvailability
        (setModelStatus st "gemma" ⟨false, true, now, 0, none⟩) 256 = true := by
      simp only [checkMemoryAvailability, husage1, ge_iff_le, decide_eq_true_eq]
      omega
    constructor
    · simp only [loadGemmaModel, loadModel, hload, hloading, GEMMA_CONFIG]
      simp only [hct]
      simp [hc]
    · intro hgt
      omega
  · have hcf : checkMemoryAvailability
        (setModelStatus st "gemma" ⟨false, true, now, 0, none⟩) 256 = false := by
      simp only [checkMemoryAvailability, husage1, ge_iff_le]
      simp only [decide_eq_false_iff_not]
      omega
    have hrun : loadGemmaModel st now now2 =
        (setModelStatus (setModelStatus st "gemma" ⟨false, true, now, 0, none⟩)
           "gemma" ⟨false, false, now2, 0, some "Insufficient memory for Gemma model"⟩,
         [⟨false, true, now, 0, none⟩,
          ⟨false, false, now2, 0, some "Insufficient memory for Gemma model"⟩],
         Except.error "Insufficient memory for Gemma model") := by
      simp only [loadGemmaModel, loadModel, hload, hloading, GEMMA_CONFIG]
      simp only [hcf]
      simp
    constructor
    · rw [hrun]
      simp
      omega
    · intro _
      refine ⟨?_, ?_, ?_, ?_⟩
      · rw [hrun]
      · rw [hrun]
        simp only [getCurrentMemoryUsage, setModelStatus] at husage1 ⊢
        rw [sumUsage_set _ _ _ rfl]
        · exact husage1
        · exact Or.inr ⟨⟨false, true, now, 0, none⟩, JsMap.get_set_self _ _ _, rfl⟩
      · rw [hrun]
        simp [setModelStatus, JsMap.get_set_self]
      · rw [hrun]
        simp

/-- Claim C1 witness: the amended theorem evaluated at the concrete
300-MB-usage state. -/
theorem ensureLoaded_budget_gate_witness :
    ((loadGemmaModel stHighUsage 1000 1001).2.2 = Except.ok () ↔
        getCurrentMemoryUsage stHighUsage + 256 ≤ 512) ∧
    (512 < getCurrentMemoryUsage stHighUsage + 256 →
      (loadGemmaModel stHighUsage 1000 1001).2.2 =
          Except.error "Insufficient memory for Gemma model" ∧
      getCurrentMemoryUsage (loadGemmaModel stHighUsage 1000 1001).1 =
          getCurrentMemoryUsage stHighUsage ∧
      ((JsMap.get (loadGemmaModel stHighUsage 1000 1001).1.modelStatus "gemma").map
          ModelManager.ModelStatus.isLoading) = some false ∧
      (((loadGemmaModel stHighUsage 1000 1001).2.1.head?).map
          ModelManager.ModelStatus.isLoading) = some true) :=
  ensureLoaded_budget_gate stHighUsage 1000 1001 (Or.inl (by decide))


/-- Claim C2: tasks submitted through `executeWithGemma` / `executeWithTTS`
run in strict FIFO submission order under a global critical section: after
any interleaving of submissions and completions, at most one task is
between popped and resolved, and the recorded trace is the canonical
serialized one `start 0, done 0, start 1, done 1, …`, possibly followed by
the `start` of the single in-flight task — so the i-th operation body never
begins before the (i-1)-th task has fully resolved, regardless of which
model each task targets. -/
theorem queue_fifo_single_flight (acts : List Queue.QAction) :
    (runQueue qInit acts).active.length ≤ 1 ∧
    (∃ k, (runQueue qInit acts).trace = canonTrace k ∨
       (runQueue qInit acts).trace = canonTrace k ++ [Queue.QEvent.start k]) := by
  have h := qInv_run acts qInit qInv_init
  rcases h with ⟨ha, _, _, ht⟩ | ⟨t, m, ha, _, ht, _, _⟩
  · exact ⟨by simp [ha], ⟨(runQueue qInit acts).nextId, Or.inl ht⟩⟩
  · exact ⟨by simp [ha], ⟨t.id, Or.inr ht⟩⟩

/-- Claim C3 (code bug): after both models load on a fresh manager, the
`backgrounded` signal leaves both statuses `isLoaded = true` — the unload
routines guard on the `gemmaModel` / `ttsModel` handles, which no load path
ever assigns — while the cache half does behave as specified: aggressive
cleanup on one High and two Medium entries leaves exactly the High entry. -/
theorem backgrounded_models_stay_loaded :
    ((JsMap.get stBothLoaded.modelStatus "gemma").map
        ModelManager.ModelStatus.isLoaded = some true) ∧
    ((JsMap.get stBothLoaded.modelStatus "tts").map
        ModelManager.ModelStatus.isLoaded = some true) ∧
    ((JsMap.get (handleAppStateChange AppStateStatus.background 2000
        stBothLoaded).modelStatus "gemma").map
        ModelManager.ModelStatus.isLoaded = some true) ∧
    ((JsMap.get (handleAppStateChange AppStateStatus.background 2000
        stBothLoaded).modelStatus "tts").map
        ModelManager.ModelStatus.isLoaded = some true) ∧
    (performAggressiveCleanup memHighMedMed).cacheItems =
      [("h", ⟨"h", 100, 1000, 1⟩)] := by
  decide


/-- In a key-unique map, two entries sharing a key are the same entry. -/
theorem eq_of_memKey_nodup {β : Type} (m : List (String × β))
    (hnd : (m.map Prod.fst).Nodup) (p q : String × β)
    (hp : p ∈ m) (hq : q ∈ m) (h : p.1 = q.1) : p = q := by
  induction m with
  | nil => simp at hp
  | cons r rest ih =>
    simp only [List.map_cons, List.nodup_cons] at hnd
    rcases List.mem_cons.mp hp with hp1 | hp1 <;>
      rcases List.mem_cons.mp hq with hq1 | hq1
    · rw [hp1, hq1]
    · exfalso
      apply hnd.1
      rw [← hp1, h]
      exact List.mem_map_of_mem Prod.fst hq1
    · exfalso
      apply hnd.1
      rw [← hq1, ← h]
      exact List.mem_map_of_mem Prod.fst hp1
    · exact ih hnd.2 hp1 hq1

/-- An entry survives a fold of deletions whose keys all differ from its
own. -/
theorem mem_foldl_delete {β γ : Type} (f : γ → String) (ks : List γ)
    (m : List (String × β)) (p : String × β)
    (hp : p ∈ m) (hk : ∀ x ∈ ks, p.1 ≠ f x) :
    p ∈ ks.foldl (fun acc x => JsMap.delete acc (f x)) m := by
  induction ks generalizing m with
  | nil => simpa using hp
  | cons k rest ih =>
    simp only [List.foldl_cons]
    apply ih (JsMap.delete m (f k))
    · exact JsMap.mem_delete_of_ne m (f k) p hp (hk k (List.mem_cons_self k rest))
    · intro x hx
      exact hk x (List.mem_cons_of_mem k hx)

/-- A fold of deletions only removes entries. -/
theorem foldl_delete_subset {β γ : Type} (f : γ → String) (ks : List γ)
    (m : List (String × β)) (p : String × β)
    (hp : p ∈ ks.foldl (fun acc x => JsMap.delete acc (f x)) m) : p ∈ m := by
  induction ks generalizing m with
  | nil => simpa using hp
  | cons k rest ih =>
    simp only [List.foldl_cons] at hp
    have := ih (JsMap.delete m (f k)) hp
    exact List.mem_of_mem_eraseP this

theorem mem_of_mem_insertByTimestamp (x y : MemoryManager.CacheItem)
    (l : List MemoryManager.CacheItem) (h : y ∈ insertByTimestamp x l) :
    y = x ∨ y ∈ l := by
  induction l with
  | nil =>
    simp [insertByTimestamp] at h
    exact Or.inl h
  | cons z zs ih =>
    simp only [insertByTimestamp] at h
    by_cases hc : z.timestamp ≤ x.timestamp
    · simp only [hc, if_true] at h
      rcases List.mem_cons.mp h with h1 | h1
      · exact Or.inr (by rw [h1]; exact List.mem_cons_self z zs)
      · rcases ih h1 with h2 | h2
        · exact Or.inl h2
        · exact Or.inr (List.mem_cons_of_mem z h2)
    · simp only [hc, if_false] at h
      rcases List.mem_cons.mp h with h1 | h1
      · exact Or.inl h1
      · exact Or.inr h1

theorem mem_of_mem_sortByTimestamp (y : MemoryManager.CacheItem)
    (l : List MemoryManager.CacheItem) (h : y ∈ sortByTimestamp l) : y ∈ l := by
  induction l with
  | nil => simp [sortByTimestamp] at h
  | cons z zs ih =>
    simp only [sortByTimestamp] at h
    rcases mem_of_mem_insertByTimestamp z y (sortByTimestamp zs) h with h1 | h1
    · rw [h1]; exact List.mem_cons_self z zs
    · exact List.mem_cons_of_mem z (ih h1)

/-- Claim C4 (counterexample): inserting Low, Low, Medium, High entries of
size 150 each triggers no eviction at all — the implemented threshold
compares `512 + cacheSize + 256` against 80% of the simulated device memory
(4096 on iOS), not against the 512 budget — so both Low entries survive and
cache usage is 600, not 300. -/
theorem priority_eviction_cex :
    JsMap.get memAfterFour.cacheItems "low1" = some ⟨"low1", 150, 1000, 3⟩ ∧
    JsMap.get memAfterFour.cacheItems "low2" = some ⟨"low2", 150, 1000, 3⟩ ∧
    (getCacheStats memAfterFour).totalItems = 4 ∧
    getCacheSize memAfterFour = 600 := by
  decide

/-- Claim C4 (amended): the cleanup pass first removes TTL-expired entries
and then — only if the ratio `(512 + cacheSize + 256) / totalMemory` is
still above 0.8 — deletes the oldest ⌈half⌉ of the Low-priority (3)
entries; Medium entries are never touched by that second phase and
non-expired High entries are never removed.  Concretely, in a well-formed
map every non-expired entry with priority ≠ 3 survives `performMemoryCleanup`;
and on an over-threshold state with two Low entries only the older Low
entry is removed, leaving Medium and High intact. -/
theorem memory_cleanup_spares_non_low (st : MemoryManager.MemState) (now : Nat)
    (hnd : (st.cacheItems.map Prod.fst).Nodup)
    (hwf : ∀ p ∈ st.cacheItems, p.2.key = p.1)
    (k : String) (it : MemoryManager.CacheItem)
    (hmem : (k, it) ∈ st.cacheItems) (hpr : it.priority ≠ 3)
    (hfresh : now - it.timestamp ≤ MemoryManager.CACHE_EXPIRY) :
    (k, it) ∈ (performMemoryCleanup now st).cacheItems ∧
    (performMemoryCleanup 1000 memOverThreshold).cacheItems =
      [("lowNew", ⟨"lowNew", 600, 500, 3⟩), ("med", ⟨"med", 500, 200, 2⟩),
       ("high", ⟨"high", 500, 100, 1⟩)] := by
  constructor
  · have hsurvive1 : (k, it) ∈ (removeExpiredCacheItems now st).cacheItems := by
      apply mem_foldl_delete (fun s => s) _ _ _ hmem
      intro x hx
      simp only [List.mem_map, List.mem_filter] at hx
      rcases hx with ⟨q, ⟨hqmem, hqexp⟩, hqk⟩
      intro hkx
      have : (k, it) = q :=
        eq_of_memKey_nodup st.cacheItems hnd (k, it) q hmem hqmem (by rw [hkx, hqk])
      rw [← this] at hqexp
      simp only [decide_eq_true_eq] at hqexp
      omega
    simp only [performMemoryCleanup]
    by_cases hover : overThreshold (removeExpiredCacheItems now st) = true
    · simp only [hover, if_true]
      simp only [removeLowPriorityItems]
      apply mem_foldl_delete MemoryManager.CacheItem.key _ _ _ hsurvive1
      intro x hx
      have hxlow : x ∈ (((removeExpiredCacheItems now st).cacheItems.map
          (fun p => p.2)).filter (fun i => i.priority == 3)) :=
        mem_of_mem_sortByTimestamp x _ (List.mem_of_mem_take hx)
      simp only [List.mem_filter, List.mem_map] at hxlow
      rcases hxlow with ⟨⟨q, hqmem, hqx⟩, hx3⟩
      have hqst : q ∈ st.cacheItems := foldl_delete_subset (fun s => s) _ _ q hqmem
      have hkey : x.key = q.1 := by rw [← hqx]; exact hwf q hqst
      intro hkx
      have heq : (k, it) = q :=
        eq_of_memKey_nodup st.cacheItems hnd (k, it) q hmem hqst (by rw [hkx, hkey])
      apply hpr
      have : it = x := by
        have h2 := congrArg Prod.snd heq
        simp only at h2
        rw [h2, hqx]
      rw [this]
      simpa using hx3
    · simp only [hover, if_false]
      exact hsurvive1
  · decide

/-- Claim C4 witness: the amended theorem at the over-threshold state, for
its Medium entry. -/
theorem memory_cleanup_spares_non_low_witness :
    ("med", (⟨"med", 500, 200, 2⟩ : MemoryManager.CacheItem)) ∈
      (performMemoryCleanup 1000 memOverThreshold).cacheItems ∧
    (performMemoryCleanup 1000 memOverThreshold).cacheItems =
      [("lowNew", ⟨"lowNew", 600, 500, 3⟩), ("med", ⟨"med", 500, 200, 2⟩),
       ("high", ⟨"high", 500, 100, 1⟩)] :=
  memory_cleanup_spares_non_low memOverThreshold 1000 (by decide) (by decide)
    "med" ⟨"med", 500, 200, 2⟩ (by decide) (by decide) (by decide)


/-- Claim C5 (code bug): after `loadGemmaModel` completes, one idle timer is
armed for `gemma` with the configured 300000 ms delay; but when it fires,
the callback's `unloadGemmaModel` finds the never-assigned `gemmaModel`
handle null and does nothing — the status stays Loaded and the recorded
usage stays 256 instead of dropping by the footprint.  Moreover a further
`loadGemmaModel` call on the loaded model returns immediately WITHOUT
refreshing `lastUsed` or rescheduling the timer: the state comes back
unchanged. -/
theorem idle_timer_never_unloads :
    stGemmaLoaded.armedTimers = [(0, "gemma", 300000)] ∧
    ((JsMap.get stGemmaLoaded.modelStatus "gemma").map
        ModelManager.ModelStatus.isLoaded = some true) ∧
    getCurrentMemoryUsage stGemmaLoaded = 256 ∧
    ((JsMap.get (fireUnloadTimer 301001 stGemmaLoaded).modelStatus "gemma").map
        ModelManager.ModelStatus.isLoaded = some true) ∧
    getCurrentMemoryUsage (fireUnloadTimer 301001 stGemmaLoaded) = 256 ∧
    loadGemmaModel stGemmaLoaded 400000 400001 =
      (stGemmaLoaded, [], Except.ok ()) := by
  decide

/-- Claim C6 (code bug): there is no load-timeout mechanism.
`loadQuantizedModel` never consults `loadTimeout` — its result is identical
for every value of that field, including 0 — and it always succeeds after
its fixed simulated 2000 ms delay, so no `LoadTimeout` failure and no
`Error`-state transition is reachable from a load. -/
theorem load_ignores_timeout (c : ModelManager.ModelConfig) (t : Nat) :
    loadQuantizedModel { c with loadTimeout := t } = loadQuantizedModel c ∧
    loadQuantizedModel c = (2000, Except.ok ()) :=
  ⟨rfl, rfl⟩

/-- Claim C7 (counterexample): a caller arriving while the gemma load is in
flight awaits and then returns success with the state unchanged; the
polling waiter, observing the final status of a FAILED load (error
recorded, not loading, not loaded), still resolves with success — the
failure is not reported to the waiting caller. -/
theorem waiting_caller_sees_success_cex :
    loadGemmaModel stGemmaLoading 6000 6001 =
      (stGemmaLoading, [], Except.ok ()) ∧
    waitForModelLoad [some failedFinalStatus] = some (Except.ok ()) ∧
    failedFinalStatus.isLoaded = false ∧
    failedFinalStatus.error = some "Insufficient memory for Gemma model" := by
  decide

/-- Claim C7 (amended): while the resource is `Loading`, `loadGemmaModel`
starts no duplicate load — the state is returned unchanged and no status is
written — and the caller receives success; and the poll's resolution
carries success for every final status with `isLoading` false, in
particular for one that records a failed load, so a waiting caller
observes success even after the in-flight load fails. -/
theorem loading_branch_single_flight (st : ModelManager.MMState) (now now2 : Nat)
    (s final : ModelManager.ModelStatus)
    (hget : JsMap.get st.modelStatus "gemma" = some s)
    (hnl : s.isLoaded = false) (hl : s.isLoading = true)
    (hf : final.isLoading = false) :
    loadGemmaModel st now now2 = (st, [], Except.ok ()) ∧
    waitForModelLoad [some final] = some (Except.ok ()) := by
  constructor
  · simp [loadGemmaModel, loadModel, hget, hnl, hl]
  · simp [waitForModelLoad, hf]

/-- Claim C7 witness: the amended theorem at the concrete loading state and
the failed final status. -/
theorem loading_branch_single_flight_witness :
    loadGemmaModel stGemmaLoading 6000 6001 =
      (stGemmaLoading, [], Except.ok ()) ∧
    waitForModelLoad [some failedFinalStatus] = some (Except.ok ()) :=
  loading_branch_single_flight stGemmaLoading 6000 6001
    ⟨false, true, 4000, 0, none⟩ failedFinalStatus (by decide) rfl rfl rfl

/-- Claim C8 (counterexample): the priority cache's lookup ignores age — at
t = 4000000 the entry inserted at t = 0 is older than the 3600000 ms
expiry, yet `getCacheItem` (which consults no clock at all) still returns
it, nothing is removed, and `getCacheStats` still counts its 100 bytes. -/
theorem priority_cache_lookup_no_expiry_cex :
    MemoryManager.CACHE_EXPIRY < 4000000 - 0 ∧
    getCacheItem memStale "k" = some ⟨"k", 100, 0, 1⟩ ∧
    (getCacheStats memStale).totalItems = 1 ∧
    (getCacheStats memStale).totalSize = 100 := by
  decide

/-- Claim C8 (amended): in the translation cache, `getFromCache` returns the
payload while the entry's age is strictly below the 24-hour window and, at
or past it, returns nothing, deletes the entry — the item count drops by
one and a second lookup also returns nothing.  (In the priority cache,
`getCacheItem` does no expiry handling at all; see the counterexample.) -/
theorem translation_cache_ttl_lookup (st : TranslationService.TransState)
    (key : String) (e : TranslationService.CacheEntry) (now : Nat)
    (hnd : (st.translationCache.map Prod.fst).Nodup)
    (hget : JsMap.get st.translationCache key = some e) :
    (now - e.timestamp < TranslationService.CACHE_EXPIRY_HOURS * 3600000 →
      getFromCache st key now = (st, some e.text)) ∧
    (TranslationService.CACHE_EXPIRY_HOURS * 3600000 ≤ now - e.timestamp →
      (getFromCache st key now).2 = none ∧
      (getTransCacheStats (getFromCache st key now).1).1 + 1 =
        (getTransCacheStats st).1 ∧
      (getFromCache (getFromCache st key now).1 key now).2 = none) := by
  constructor
  · intro hfresh
    simp [getFromCache, hget, hfresh]
  · intro hstale
    have hcond : ¬ now - e.timestamp < TranslationService.CACHE_EXPIRY_HOURS * 3600000 := by
      omega
    refine ⟨?_, ?_, ?_⟩
    · simp [getFromCache, hget, hcond]
    · simp only [getFromCache, hget, hcond, if_false, getTransCacheStats]
      exact JsMap.length_delete_of_memKey st.translationCache key
        (JsMap.memKey_of_get_some st.translationCache key e hget)
    · simp only [getFromCache, hget, hcond, if_false]
      have hdel : JsMap.get (JsMap.delete st.translationCache key) key = none :=
        JsMap.get_delete_self st.translationCache key hnd
      simp [getFromCache, hdel]

/-- Claim C8 witness: the amended theorem at the one-entry cache, looked up
at t = 90000000 (past the 86400000 ms window). -/
theorem translation_cache_ttl_lookup_witness :
    (90000000 - (0 : Nat) < TranslationService.CACHE_EXPIRY_HOURS * 3600000 →
      getFromCache stOneEntry "k" 90000000 = (stOneEntry, some "hello")) ∧
    (TranslationService.CACHE_EXPIRY_HOURS * 3600000 ≤ 90000000 - (0 : Nat) →
      (getFromCache stOneEntry "k" 90000000).2 = none ∧
      (getTransCacheStats (getFromCache stOneEntry "k" 90000000).1).1 + 1 =
        (getTransCacheStats stOneEntry).1 ∧
      (getFromCache (getFromCache stOneEntry "k" 90000000).1 "k" 90000000).2 = none) :=
  translation_cache_ttl_lookup stOneEntry "k" ⟨"hello", 0, 1⟩ 90000000
    (by decide) (by decide)


/-- Under the timer invariant, cancelling always leaves no armed timer. -/
theorem cancelUnloadTimer_armed_nil (st : ModelManager.MMState) (h : TimerInv st) :
    (cancelUnloadTimer st).armedTimers = [] ∧
    (cancelUnloadTimer st).nextTimerId = st.nextTimerId := by
  rcases h with ⟨hlen, htrack⟩
  rcases hu : st.unloadTimer with _ | id
  · rcases harm : st.armedTimers with _ | ⟨tr, rest⟩
    · simp [cancelUnloadTimer, hu, harm]
    · have h1 := htrack tr (by rw [harm]; exact List.mem_cons_self tr rest)
      rw [hu] at h1
      exact absurd h1 (by simp)
  · rcases harm : st.armedTimers with _ | ⟨tr, rest⟩
    · simp [cancelUnloadTimer, hu, harm]
    · have h1 := htrack tr (by rw [harm]; exact List.mem_cons_self tr rest)
      rw [hu] at h1
      have hid : tr.1 = id := by
        injection h1 with h2
        exact h2.symm
      have hrest : rest = [] := by
        rw [harm] at hlen
        simp only [List.length_cons] at hlen
        exact List.eq_nil_of_length_eq_zero (by omega)
      simp [cancelUnloadTimer, hu, harm, hrest, List.eraseP_cons, hid]

/-- Scheduling from an invariant state leaves exactly the new timer armed. -/
theorem schedule_armed (modelKey : String) (delay : Nat)
    (st : ModelManager.MMState) (h : TimerInv st) :
    (scheduleModelUnload modelKey delay st).armedTimers =
      [(st.nextTimerId, modelKey, delay)] ∧
    (scheduleModelUnload modelKey delay st).unloadTimer = some st.nextTimerId := by
  have hc := cancelUnloadTimer_armed_nil st h
  simp [scheduleModelUnload, hc.1, hc.2]

/-- Scheduling preserves the timer invariant. -/
theorem timerInv_schedule (modelKey : String) (delay : Nat)
    (st : ModelManager.MMState) (h : TimerInv st) :
    TimerInv (scheduleModelUnload modelKey delay st) := by
  have hs := schedule_armed modelKey delay st h
  refine ⟨by rw [hs.1]; simp, ?_⟩
  intro tr htr
  rw [hs.1] at htr
  rcases List.mem_cons.mp htr with h1 | h1
  · rw [hs.2, h1]
  · simp at h1

/-- `setModelStatus` touches neither timer field. -/
theorem timerInv_setModelStatus (st : ModelManager.MMState) (k : String)
    (s : ModelManager.ModelStatus) (h : TimerInv st) :
    TimerInv (setModelStatus st k s) := by
  rcases h with ⟨h1, h2⟩
  exact ⟨h1, h2⟩

/-- Claim C9: the manager keeps one process-wide unload-timer slot, not one
per resource: from any state satisfying the timer invariant (at most one
armed timer, the tracked one), `scheduleModelUnload` — invoked by whichever
model finished loading — first cancels the pending timer and leaves
exactly one armed timer, aimed at the newly scheduled model key with its
delay; and every load-entry call preserves the invariant.  Hence loading
the other model cancels a pending idle unload and only the most recently
scheduled model can ever be addressed by the timer. -/
theorem single_global_unload_timer (modelKey : String) (delay : Nat)
    (config : ModelManager.ModelConfig) (key2 errName : String)
    (st : ModelManager.MMState) (now now2 : Nat) (h : TimerInv st) :
    (scheduleModelUnload modelKey delay st).armedTimers =
      [(st.nextTimerId, modelKey, delay)] ∧
    TimerInv (scheduleModelUnload modelKey delay st) ∧
    TimerInv (loadModel config key2 errName st now now2).1 := by
  refine ⟨(schedule_armed modelKey delay st h).1, timerInv_schedule modelKey delay st h, ?_⟩
  simp only [loadModel]
  split
  · exact h
  · split
    · exact h
    · split
      · exact timerInv_schedule key2 config.unloadDelay _
          (timerInv_setModelStatus _ _ _ (timerInv_setModelStatus _ _ _ h))
      · exact timerInv_setModelStatus _ _ _ h

/-- Claim C9 witness: with gemma's idle timer pending, scheduling the TTS
unload cancels it and leaves only the TTS timer armed (id 1, delay
600000 ms), and a load call preserves the invariant. -/
theorem single_global_unload_timer_witness :
    (scheduleModelUnload "tts" 600000 stGemmaLoaded).armedTimers =
      [(stGemmaLoaded.nextTimerId, "tts", 600000)] ∧
    TimerInv (scheduleModelUnload "tts" 600000 stGemmaLoaded) ∧
    TimerInv (loadModel TTS_CONFIG "tts" "TTS" stGemmaLoaded 1002 1003).1 :=
  single_global_unload_timer "tts" 600000 TTS_CONFIG "tts" "TTS"
    stGemmaLoaded 1002 1003
    (by refine ⟨by decide, ?_⟩
        intro tr htr
        have harm : stGemmaLoaded.armedTimers = [(0, "gemma", 300000)] := by decide
        rw [harm] at htr
        rcases List.mem_cons.mp htr with h1 | h1
        · rw [h1]; decide
        · simp at h1)


/-- `set` grows the map by at most one entry. -/
theorem length_set_le {β : Type} (m : List (String × β)) (k : String) (v : β) :
    (JsMap.set m k v).length ≤ m.length + 1 := by
  rcases h : JsMap.get m k with _ | w
  · rw [JsMap.length_set_of_get_none m k v h]
  · rw [JsMap.length_set_of_get_some m k v w h]
    omega

/-- The oldest-entry scan returns its seed when no entry is strictly older
than the seed time. -/
theorem foldl_oldStep_const (l : List (String × TranslationService.CacheEntry))
    (acc : String × Nat) (h : ∀ p ∈ l, ¬ p.2.timestamp < acc.2) :
    l.foldl oldStep acc = acc := by
  induction l with
  | nil => rfl
  | cons q rest ih =>
    have hq : oldStep acc q = acc := by
      simp only [oldStep, if_neg (h q (List.mem_cons_self q rest))]
    rw [List.foldl_cons, hq]
    exact ih (fun p hp => h p (List.mem_cons_of_mem q hp))

/-- The oldest-entry scan either keeps its seed or lands on an entry of the
list, its running time only decreases, and the final time is a lower bound
for every timestamp in the list. -/
theorem oldStep_foldl_spec (l : List (String × TranslationService.CacheEntry))
    (acc : String × Nat) :
    (l.foldl oldStep acc = acc ∨
      ∃ p ∈ l, l.foldl oldStep acc = (p.1, p.2.timestamp)) ∧
    (l.foldl oldStep acc).2 ≤ acc.2 ∧
    ∀ p ∈ l, (l.foldl oldStep acc).2 ≤ p.2.timestamp := by
  induction l generalizing acc with
  | nil => exact ⟨Or.inl rfl, le_refl _, by simp⟩
  | cons q rest ih =>
    have hstep : oldStep acc q = acc ∨ oldStep acc q = (q.1, q.2.timestamp) := by
      simp only [oldStep]
      split
      · exact Or.inr rfl
      · exact Or.inl rfl
    have hstep2 : (oldStep acc q).2 ≤ acc.2 := by
      simp only [oldStep]
      split
      · simp only
        omega
      · exact le_refl _
    have hstepq : (oldStep acc q).2 ≤ q.2.timestamp := by
      simp only [oldStep]
      split
      · exact le_refl _
      · omega
    obtain ⟨ih1, ih2, ih3⟩ := ih (oldStep acc q)
    refine ⟨?_, ?_, ?_⟩
    · rcases ih1 with h1 | ⟨p, hp, h1⟩
      · rcases hstep with h2 | h2
        · exact Or.inl (by rw [List.foldl_cons, h1, h2])
        · exact Or.inr ⟨q, List.mem_cons_self q rest, by rw [List.foldl_cons, h1, h2]⟩
      · exact Or.inr ⟨p, List.mem_cons_of_mem q hp, by rw [List.foldl_cons]; exact h1⟩
    · rw [List.foldl_cons]
      exact le_trans ih2 hstep2
    · intro p hp
      rcases List.mem_cons.mp hp with h1 | h1
      · rw [List.foldl_cons, h1]
        exact le_trans ih2 hstepq
      · rw [List.foldl_cons]
        exact ih3 p h1

/-- When some entry is strictly older than `now`, the scan finds an entry
with the minimal timestamp. -/
theorem findOldest_min (cache : List (String × TranslationService.CacheEntry))
    (now : Nat) (hex : ∃ p ∈ cache, p.2.timestamp < now) :
    ∃ p ∈ cache, findOldest cache now = (p.1, p.2.timestamp) ∧
      ∀ q ∈ cache, p.2.timestamp ≤ q.2.timestamp := by
  obtain ⟨spec1, spec2, spec3⟩ := oldStep_foldl_spec cache ("", now)
  rcases hex with ⟨p0, hp0, hlt⟩
  have hlow : (cache.foldl oldStep ("", now)).2 < now :=
    lt_of_le_of_lt (spec3 p0 hp0) hlt
  rcases spec1 with h | ⟨p, hp, h⟩
  · rw [h] at hlow
    exact absurd hlow (by simp)
  · refine ⟨p, hp, h, ?_⟩
    intro q hq
    have := spec3 q hq
    rw [h] at this
    exact this

set_option maxRecDepth 4000 in
/-- Claim C10 (counterexample): a cache of 500 entries all carrying the
current millisecond defeats the eviction — the scan's strict
`timestamp < oldestTime` comparison (seeded with `Date.now()`) selects
nothing, the falsy `''` sentinel skips the delete, and the insert leaves
501 entries, breaking the `MAX_CACHE_SIZE` bound. -/
theorem addToCache_exceeds_bound_cex :
    stFullSameTick.translationCache.length = 500 ∧
    (addToCache "fresh" "y" 1 1000 stFullSameTick).translationCache.length = 501 := by
  have h500 : fullSameTickCache.length = 500 := by
    simp [fullSameTickCache]
  have hts : ∀ p ∈ fullSameTickCache, ¬ p.2.timestamp < 1000 := by
    intro p hp
    simp only [fullSameTickCache, List.mem_map] at hp
    rcases hp with ⟨j, _, hpe⟩
    rw [← hpe]
    simp
  have hfo : findOldest fullSameTickCache 1000 = ("", 1000) :=
    foldl_oldStep_const fullSameTickCache ("", 1000) hts
  have hevict : evictOldestCacheEntry 1000 stFullSameTick = stFullSameTick := by
    simp [evictOldestCacheEntry, stFullSameTick, hfo]
  have hnotmem : "fresh" ∉ fullSameTickCache.map Prod.fst := by
    simp only [fullSameTickCache, List.map_map, List.mem_map, Function.comp]
    rintro ⟨j, _, hj⟩
    have hl := congrArg String.length hj
    simp at hl
    have h4 : j = 4 := by
      have h5 : "fresh".length = 5 := by decide
      omega
    subst h4
    exact absurd hj (by decide)
  have hget : JsMap.get fullSameTickCache "fresh" = none :=
    JsMap.get_eq_none_of_not_memKey fullSameTickCache "fresh" hnotmem
  have hstc : stFullSameTick.translationCache = fullSameTickCache := rfl
  constructor
  · rw [hstc]
    exact h500
  · have hc : stFullSameTick.translationCache.length ≥
        TranslationService.MAX_CACHE_SIZE := by
      rw [hstc, h500]
      simp [TranslationService.MAX_CACHE_SIZE]
    simp only [addToCache, if_pos hc, hevict]
    rw [hstc]
    rw [JsMap.length_set_of_get_none fullSameTickCache "fresh" _ hget, h500]

/-- Claim C10 (amended): `addToCache` preserves the 500-entry bound on every
well-formed cache (non-empty keys) in which, when full, at least one entry
is strictly older than the current millisecond — the eviction then removes
an entry with the minimal timestamp; but when every entry carries the
current millisecond the strict scan selects nothing (see the
counterexample) and the bound can be exceeded by one. -/
theorem addToCache_bound_preserved (st : TranslationService.TransState)
    (key text : String) (c : ℚ) (now : Nat)
    (hkeys : ∀ p ∈ st.translationCache, p.1 ≠ "")
    (hb : st.translationCache.length ≤ 500)
    (hroom : st.translationCache.length < 500 ∨
      ∃ p ∈ st.translationCache, p.2.timestamp < now) :
    (addToCache key text c now st).translationCache.length ≤ 500 ∧
    ((∃ p ∈ st.translationCache, p.2.timestamp < now) →
      ∃ p ∈ st.translationCache,
        findOldest st.translationCache now = (p.1, p.2.timestamp) ∧
        ∀ q ∈ st.translationCache, p.2.timestamp ≤ q.2.timestamp) := by
  constructor
  · by_cases hfull : st.translationCache.length ≥ TranslationService.MAX_CACHE_SIZE
    · have hex : ∃ p ∈ st.translationCache, p.2.timestamp < now := by
        rcases hroom with h | h
        · exact absurd hfull (by simp [TranslationService.MAX_CACHE_SIZE]; omega)
        · exact h
      obtain ⟨p, hp, hfo, _⟩ := findOldest_min st.translationCache now hex
      have hkne2 : ¬ p.1 = "" := hkeys p hp
      have hmemk : p.1 ∈ st.translationCache.map Prod.fst :=
        List.mem_map_of_mem Prod.fst hp
      have hdel : (JsMap.delete st.translationCache p.1).length + 1 =
          st.translationCache.length :=
        JsMap.length_delete_of_memKey st.translationCache p.1 hmemk
      simp only [addToCache, if_pos hfull, evictOldestCacheEntry, hfo,
        if_neg hkne2]
      have hle := length_set_le (JsMap.delete st.translationCache p.1) key
        (⟨text, now, c⟩ : TranslationService.CacheEntry)
      simp only [TranslationService.MAX_CACHE_SIZE] at hfull
      omega
    · simp only [addToCache, if_neg hfull]
      have hle := length_set_le st.translationCache key
        (⟨text, now, c⟩ : TranslationService.CacheEntry)
      simp only [TranslationService.MAX_CACHE_SIZE] at hfull
      omega
  · intro hex
    exact findOldest_min st.translationCache now hex

/-- Claim C10 witness: the amended theorem on a one-entry cache. -/
theorem addToCache_bound_preserved_witness :
    (addToCache "b" "bonjour" 1 50 stOneEntry).translationCache.length ≤ 500 ∧
    ((∃ p ∈ stOneEntry.translationCache, p.2.timestamp < 50) →
      ∃ p ∈ stOneEntry.translationCache,
        findOldest stOneEntry.translationCache 50 = (p.1, p.2.timestamp) ∧
        ∀ q ∈ stOneEntry.translationCache, p.2.timestamp ≤ q.2.timestamp) :=
  addToCache_bound_preserved stOneEntry "b" "bonjour" 1 50
    (by intro p hp; simp [stOneEntry] at hp; rw [hp]; decide)
    (by decide) (Or.inl (by decide))

end TranslateOffline
